import Mathlib

/-
Verification of the reth blockchain-tree block indices
(crates/executor/src/blockchain_tree/block_indices.rs).

Shallow embedding conventions:
* `BTreeMap BlockNumber BlockHash` is a list of key-value pairs kept in
  strictly increasing key order (the `keysSorted` predicate);
* `HashMap k v` is a function `k -> Option v`;
* `HashSet BlockHash` is a `List BlockHash` used with set semantics
  (`List.insert` inserts only when absent, `List.erase` removes);
* `BTreeSet BlockChainId` results are `Finset Nat`;
* block hashes, numbers and chain ids are opaque identifiers, modelled
  as naturals.
-/

abbrev BlockNumber := Nat

abbrev BlockHash := Nat

abbrev BlockChainId := Nat

/-- The `(number, hash, parent_hash)` view of a sealed block; the index
only ever reads these three fields of `SealedBlockWithSenders`. -/
structure SealedBlockWithSenders where
  number : BlockNumber
  hash : BlockHash
  parent_hash : BlockHash
deriving DecidableEq, Repr

/-- A side-chain segment: an ordered map from block number to sealed
block (the `BTreeMap` of `Chain::blocks`), as a sorted association list. -/
structure Chain where
  blocks : List (BlockNumber × SealedBlockWithSenders)
deriving DecidableEq, Repr

/-- Lowest-numbered block of the chain (`Chain::first`); `none` models the
panic on an empty chain, which the real `Chain` type excludes. -/
def Chain.first (c : Chain) : Option SealedBlockWithSenders :=
  c.blocks.head?.map Prod.snd

/-- Point update of a hash-map model: bind key `k` to `v`. -/
def insertKey {α : Type} (m : Nat → Option α) (k : Nat) (v : α) : Nat → Option α :=
  fun x => if x = k then some v else m x

/-- Point removal of a hash-map model: unbind key `k`. -/
def eraseKey {α : Type} (m : Nat → Option α) (k : Nat) : Nat → Option α :=
  fun x => if x = k then none else m x

/-- Insertion into a `BTreeMap BlockNumber BlockHash` model: place `(k, v)`
at its sorted position, replacing an existing binding of `k`. -/
def btreeInsert (l : List (BlockNumber × BlockHash)) (k v : Nat) :
    List (BlockNumber × BlockHash) :=
  match l with
  | [] => [(k, v)]
  | (k0, v0) :: rest =>
    if k < k0 then (k, v) :: (k0, v0) :: rest
    else if k = k0 then (k, v) :: rest
    else (k0, v0) :: btreeInsert rest k v

/-- Strictly increasing key order: the invariant of a `BTreeMap` iteration. -/
def keysSorted (l : List (BlockNumber × BlockHash)) : Prop :=
  l.Pairwise (fun a b => a.1 < b.1)

instance (l : List (BlockNumber × BlockHash)) : Decidable (keysSorted l) := by
  unfold keysSorted; infer_instance

/-- State of `BlockIndices`: the five cross-linked sub-indices. -/
structure BlockIndices where
  last_finalized_block : BlockNumber
  num_of_additional_canonical_block_hashes : Nat
  canonical_chain : List (BlockNumber × BlockHash)
  fork_to_child : BlockHash → Option (List BlockHash)
  blocks_to_chain : BlockHash → Option BlockChainId
  index_number_to_block : BlockNumber → Option (List BlockHash)

/-- `BlockIndices::new`: store the seed canonical chain unchecked, all
derived sub-indices empty. -/
def BlockIndices.new (last_finalized_block : BlockNumber)
    (num_of_additional_canonical_block_hashes : Nat)
    (canonical_chain : List (BlockNumber × BlockHash)) : BlockIndices :=
  { last_finalized_block := last_finalized_block
    num_of_additional_canonical_block_hashes := num_of_additional_canonical_block_hashes
    canonical_chain := canonical_chain
    fork_to_child := fun _ => none
    blocks_to_chain := fun _ => none
    index_number_to_block := fun _ => none }

/-- `BlockIndices::contains_pending_block_hash`. -/
def BlockIndices.contains_pending_block_hash (s : BlockIndices) (block_hash : BlockHash) : Bool :=
  (s.blocks_to_chain block_hash).isSome

/-- `BlockIndices::is_block_hash_canonical`: scan the canonical values on
the key range starting at `last_finalized_block`. -/
def BlockIndices.is_block_hash_canonical (s : BlockIndices) (block_hash : BlockHash) : Bool :=
  (s.canonical_chain.filter (fun p => decide (s.last_finalized_block ≤ p.1))).any
    (fun p => p.2 == block_hash)

/-- `BlockIndices::get_blocks_chain_id`. -/
def BlockIndices.get_blocks_chain_id (s : BlockIndices) (block : BlockHash) :
    Option BlockChainId :=
  s.blocks_to_chain block

/-- `BlockIndices::canonical_hash`. -/
def BlockIndices.canonical_hash (s : BlockIndices) (block_number : BlockNumber) :
    Option BlockHash :=
  (s.canonical_chain.find? (fun p => p.1 == block_number)).map Prod.snd

/-- The `ForkBlock` pair returned by `canonical_tip`. -/
structure ForkBlock where
  number : BlockNumber
  hash : BlockHash
deriving DecidableEq, Repr

/-- `BlockIndices::canonical_tip`: last entry of the canonical map; `none`
models the `expect` panic on an empty canonical chain. -/
def BlockIndices.canonical_tip (s : BlockIndices) : Option ForkBlock :=
  s.canonical_chain.getLast?.map (fun p => { number := p.1, hash := p.2 })

/-- `BlockIndices::insert_non_fork_block`. -/
def BlockIndices.insert_non_fork_block (s : BlockIndices) (block_number : BlockNumber)
    (block_hash : BlockHash) (chain_id : BlockChainId) : BlockIndices :=
  { s with
    index_number_to_block := insertKey s.index_number_to_block block_number
      (((s.index_number_to_block block_number).getD []).insert block_hash)
    blocks_to_chain := insertKey s.blocks_to_chain block_hash chain_id }

/-- Body of the per-block loop of `BlockIndices::insert_chain`: record the
`block -> chain_id` and `number -> block` bindings. -/
def insBlockStep (chain_id : BlockChainId) (s : BlockIndices)
    (nb : BlockNumber × SealedBlockWithSenders) : BlockIndices :=
  { s with
    blocks_to_chain := insertKey s.blocks_to_chain nb.2.hash chain_id
    index_number_to_block := insertKey s.index_number_to_block nb.1
      (((s.index_number_to_block nb.1).getD []).insert nb.2.hash) }

/-- `BlockIndices::insert_chain`: index every block of the chain, then add
the `parent -> first` fork edge. -/
def BlockIndices.insert_chain (s : BlockIndices) (chain_id : BlockChainId)
    (chain : Chain) : BlockIndices :=
  let s1 := chain.blocks.foldl (insBlockStep chain_id) s
  match chain.blocks.head? with
  | some nb =>
    { s1 with
      fork_to_child := insertKey s1.fork_to_child nb.2.parent_hash
        (((s1.fork_to_child nb.2.parent_hash).getD []).insert nb.2.hash) }
  | none => s1

/-- Cascade step shared by `remove_block` and `finalize_canonical_blocks`:
unregister one child first-block hash from `blocks_to_chain`, collecting its
chain id when present. -/
def cascadeStep (acc : BlockIndices × Finset BlockChainId) (fork_child : BlockHash) :
    BlockIndices × Finset BlockChainId :=
  match acc.1.blocks_to_chain fork_child with
  | some lose_chain =>
    ({ acc.1 with blocks_to_chain := eraseKey acc.1.blocks_to_chain fork_child },
      insert lose_chain acc.2)
  | none => acc

/-- `BlockIndices::remove_block`: drop the block from `number -> block` and
`block -> chain_id`, then pop its `fork_to_child` entry and unregister every
child first-block hash, collecting the orphaned chain ids. -/
def BlockIndices.remove_block (s : BlockIndices) (block_number : BlockNumber)
    (block_hash : BlockHash) : BlockIndices × Finset BlockChainId :=
  let s1 :=
    match s.index_number_to_block block_number with
    | some set =>
      let set1 := set.erase block_hash
      if set1.isEmpty then
        { s with index_number_to_block := eraseKey s.index_number_to_block block_number }
      else
        { s with index_number_to_block := insertKey s.index_number_to_block block_number set1 }
    | none => s
  let s2 := { s1 with blocks_to_chain := eraseKey s1.blocks_to_chain block_hash }
  match s2.fork_to_child block_hash with
  | some fork_blocks =>
    let s3 := { s2 with fork_to_child := eraseKey s2.fork_to_child block_hash }
    fork_blocks.foldl cascadeStep (s3, (∅ : Finset BlockChainId))
  | none => (s2, (∅ : Finset BlockChainId))

/-- Folding step used by `remove_chain` and `update_block_hashes`: apply
`remove_block` and accumulate the returned chain ids. -/
def remBlockStep (acc : BlockIndices × Finset BlockChainId)
    (p : BlockNumber × BlockHash) : BlockIndices × Finset BlockChainId :=
  let r := acc.1.remove_block p.1 p.2
  (r.1, acc.2 ∪ r.2)

/-- `BlockIndices::remove_chain`: remove every block of the chain,
accumulating the dependent chains that must also go. -/
def BlockIndices.remove_chain (s : BlockIndices) (chain : Chain) :
    BlockIndices × Finset BlockChainId :=
  chain.blocks.foldl
    (fun acc nb => remBlockStep acc (nb.1, nb.2.hash))
    (s, (∅ : Finset BlockChainId))

/-- Merge-diff loop of `BlockIndices::update_block_hashes`: walk the new and
old canonical sequences in parallel and return the old entries to remove.
First argument is the remaining new sequence, second the remaining old one. -/
def diffLoop : List (BlockNumber × BlockHash) → List (BlockNumber × BlockHash) →
    List (BlockNumber × BlockHash)
  | _, [] => []
  | [], old => old
  | (nn, nh) :: news, (on_, oh) :: olds =>
    if nn < on_ then diffLoop news ((on_, oh) :: olds)
    else if nn = on_ then
      (if nh ≠ oh then [(on_, oh)] else []) ++ diffLoop news olds
    else (on_, oh) :: diffLoop ((nn, nh) :: news) olds
termination_by news olds => news.length + olds.length

/-- `BlockIndices::update_block_hashes`: diff old against new canonical,
install the new canonical chain wholesale, then remove every mismatched old
entry, folding the returned chain-id sets together. -/
def BlockIndices.update_block_hashes (s : BlockIndices)
    (hashes : List (BlockNumber × BlockHash)) : BlockIndices × Finset BlockChainId :=
  let remove := diffLoop hashes s.canonical_chain
  let s1 := { s with canonical_chain := hashes }
  remove.foldl remBlockStep (s1, (∅ : Finset BlockChainId))

/-- Per-block body of the `for_each` loop of
`BlockIndices::canonicalize_blocks`, reading the `(b.number, b.hash,
b.parent_hash)` triple of the block: unregister the hash from
`blocks_to_chain`, from the `number -> block` set at `b.number` (dropping
an emptied set), and from the `fork_to_child` set at `b.parent_hash`
(dropping an emptied set). The three removals touch pairwise distinct
fields, so the sequence of mutations is one grouped update. -/
def canonicalizeBlockStep (t : BlockIndices)
    (nb : BlockNumber × SealedBlockWithSenders) : BlockIndices :=
  { t with
    blocks_to_chain := eraseKey t.blocks_to_chain nb.2.hash
    index_number_to_block :=
      match t.index_number_to_block nb.2.number with
      | some set =>
        let set1 := set.erase nb.2.hash
        if set1.isEmpty then eraseKey t.index_number_to_block nb.2.number
        else insertKey t.index_number_to_block nb.2.number set1
      | none => t.index_number_to_block
    fork_to_child :=
      match t.fork_to_child nb.2.parent_hash with
      | some set =>
        let set1 := set.erase nb.2.hash
        if set1.isEmpty then eraseKey t.fork_to_child nb.2.parent_hash
        else insertKey t.fork_to_child nb.2.parent_hash set1
      | none => t.fork_to_child }

/-- `BlockIndices::canonicalize_blocks`: on a non-empty input, drop the
superseded canonical entries at or above the first input key, strip every
new block out of the side-chain indices, and extend the canonical chain
with the new blocks. -/
def BlockIndices.canonicalize_blocks (s : BlockIndices)
    (blocks : List (BlockNumber × SealedBlockWithSenders)) : BlockIndices :=
  match blocks.head? with
  | none => s
  | some first_entry =>
    let first_number := first_entry.1
    let s1 := { s with
      canonical_chain := s.canonical_chain.filter (fun p => decide (p.1 < first_number)) }
    let s2 := blocks.foldl canonicalizeBlockStep s1
    { s2 with
      canonical_chain := blocks.foldl (fun cc nb => btreeInsert cc nb.1 nb.2.hash)
        s2.canonical_chain }

/-- Per-hash step of the finalization loop: if the finalized hash has a
`fork_to_child` entry, pop it and unregister every child, folding the chain
ids into the accumulator. -/
def finalizeForkStep (acc : BlockIndices × Finset BlockChainId) (block_hash : BlockHash) :
    BlockIndices × Finset BlockChainId :=
  match acc.1.fork_to_child block_hash with
  | some fork_blocks =>
    let t := { acc.1 with fork_to_child := eraseKey acc.1.fork_to_child block_hash }
    fork_blocks.foldl cascadeStep (t, acc.2)
  | none => acc

/-- `BlockIndices::finalize_canonical_blocks`: collect the canonical hashes
in the half-open finalized range, prune the canonical chain to the
additional-hashes window, pop the fork entries of the finalized hashes
collecting orphaned chain ids, and advance `last_finalized_block`. -/
def BlockIndices.finalize_canonical_blocks (s : BlockIndices)
    (finalized_block : BlockNumber) : BlockIndices × Finset BlockChainId :=
  let finalized_blocks : List BlockHash :=
    (s.canonical_chain.filter
      (fun p => decide (s.last_finalized_block ≤ p.1) && decide (p.1 < finalized_block))).map
      Prod.snd
  let remove_until := finalized_block - s.num_of_additional_canonical_block_hashes
  let s1 := { s with
    canonical_chain := s.canonical_chain.filter (fun p => decide (remove_until ≤ p.1)) }
  let r := finalized_blocks.foldl finalizeForkStep (s1, (∅ : Finset BlockChainId))
  ({ r.1 with last_finalized_block := finalized_block }, r.2)

/-- Modelled from the spec (section 4.4): the merge-diff walk collecting the
old canonical entries marked for removal, written with an explicit
accumulator of marks. First argument: remaining new sequence; second:
remaining old sequence; third: marks so far. -/
def markedForRemoval : List (BlockNumber × BlockHash) → List (BlockNumber × BlockHash) →
    List (BlockNumber × BlockHash) → List (BlockNumber × BlockHash)
  | _, [], acc => acc
  | [], old, acc => acc ++ old
  | (nn, nh) :: news, (on_, oh) :: olds, acc =>
    if nn < on_ then markedForRemoval news ((on_, oh) :: olds) acc
    else if nn = on_ then
      markedForRemoval news olds (if nh ≠ oh then acc ++ [(on_, oh)] else acc)
    else markedForRemoval ((nn, nh) :: news) olds (acc ++ [(on_, oh)])
termination_by news olds _ => news.length + olds.length

/-- Modelled from the spec (section 4.4): replace the canonical chain
wholesale with the new map, then remove every marked entry, taking the union
of the returned chain-id sets. -/
def updateBlockHashesSpec (s : BlockIndices)
    (hashes : List (BlockNumber × BlockHash)) : BlockIndices × Finset BlockChainId :=
  let marked := markedForRemoval hashes s.canonical_chain []
  let s1 := { s with canonical_chain := hashes }
  marked.foldl remBlockStep (s1, (∅ : Finset BlockChainId))

/-- Modelled from the spec (sections 4.3 and 4.5): remove a hash from the
set held at key `k` of a map of sets, deleting the entry when the set
becomes empty. -/
def removeFromSetMap (m : Nat → Option (List Nat)) (k x : Nat) : Nat → Option (List Nat) :=
  match m k with
  | some set =>
    let set1 := set.erase x
    if set1.isEmpty then eraseKey m k else insertKey m k set1
  | none => m

/-- Modelled from the spec (section 4.3): canonicalization described through
the minimum input key and per-block set-map removals. -/
def canonicalizeBlocksSpec (s : BlockIndices)
    (blocks : List (BlockNumber × SealedBlockWithSenders)) : BlockIndices :=
  match (blocks.map Prod.fst).min? with
  | none => s
  | some first_number =>
    let s1 := { s with
      canonical_chain := s.canonical_chain.filter (fun p => decide (p.1 < first_number)) }
    let s2 := blocks.foldl
      (fun t nb =>
        { t with
          blocks_to_chain := eraseKey t.blocks_to_chain nb.2.hash
          index_number_to_block := removeFromSetMap t.index_number_to_block nb.1 nb.2.hash
          fork_to_child := removeFromSetMap t.fork_to_child nb.2.parent_hash nb.2.hash })
      s1
    { s2 with
      canonical_chain := blocks.foldl (fun cc nb => btreeInsert cc nb.1 nb.2.hash)
        s2.canonical_chain }

/-- Modelled from the spec (section 4.6): pop the fork entry of one
finalized hash and unregister each child first-block hash, returning the
collected chain ids for that hash alone. -/
def popForkChildren (s : BlockIndices) (block_hash : BlockHash) :
    BlockIndices × Finset BlockChainId :=
  match s.fork_to_child block_hash with
  | some fork_blocks =>
    fork_blocks.foldl cascadeStep
      ({ s with fork_to_child := eraseKey s.fork_to_child block_hash },
        (∅ : Finset BlockChainId))
  | none => (s, (∅ : Finset BlockChainId))

/-- Modelled from the spec (section 4.6): finalization as collect, prune,
per-hash pop with unioned results, and update of the finalized height. -/
def finalizeCanonicalBlocksSpec (s : BlockIndices) (finalized_block : BlockNumber) :
    BlockIndices × Finset BlockChainId :=
  let finalized_blocks : List BlockHash :=
    (s.canonical_chain.filter
      (fun p => decide (s.last_finalized_block ≤ p.1) && decide (p.1 < finalized_block))).map
      Prod.snd
  let remove_until := finalized_block - s.num_of_additional_canonical_block_hashes
  let s1 := { s with
    canonical_chain := s.canonical_chain.filter (fun p => decide (remove_until ≤ p.1)) }
  let r := finalized_blocks.foldl
    (fun acc block_hash =>
      let p := popForkChildren acc.1 block_hash
      (p.1, acc.2 ∪ p.2))
    (s1, (∅ : Finset BlockChainId))
  ({ r.1 with last_finalized_block := finalized_block }, r.2)

theorem diffLoop_self (l : List (BlockNumber × BlockHash)) : diffLoop l l = [] := by
  induction l with
  | nil => simp [diffLoop]
  | cons p t ih =>
    obtain ⟨n, h⟩ := p
    simp [diffLoop, ih]

/-- C5: calling `update_block_hashes` with a map equal to the current
canonical chain returns the empty set of chain ids and leaves the whole
state, in particular `canonical_chain`, `fork_to_child`, `blocks_to_chain`
and `index_number_to_block`, unchanged. -/
theorem update_block_hashes_current_canonical_noop (s : BlockIndices) :
    s.update_block_hashes s.canonical_chain = (s, (∅ : Finset BlockChainId)) := by
  unfold BlockIndices.update_block_hashes
  rw [diffLoop_self]
  rfl

/-- C2: in scenario 2 of the spec (canonical 0 -> 100, 1 -> 101, 2 -> 102
with side chain 7 holding blocks 202 and 203 forking from hash 101),
updating the canonical hashes to 0 -> 100, 1 -> 111, 2 -> 112, 3 -> 113
marks the old entries at heights 1 and 2, pops the fork entry of hash 101,
collects chain id 7 out of `blocks_to_chain`, and returns exactly the
singleton set containing 7. -/
theorem update_block_hashes_scenario_drops_chain_seven :
    ((((BlockIndices.new 0 8 [(0, 100), (1, 101), (2, 102)]).insert_chain 7
        { blocks := [(2, ⟨2, 202, 101⟩), (3, ⟨3, 203, 202⟩)] }).update_block_hashes
        [(0, 100), (1, 111), (2, 112), (3, 113)]).2 = {7}) ∧
    (diffLoop [(0, 100), (1, 111), (2, 112), (3, 113)] [(0, 100), (1, 101), (2, 102)] =
      [(1, 101), (2, 102)]) ∧
    (((BlockIndices.new 0 8 [(0, 100), (1, 101), (2, 102)]).insert_chain 7
        { blocks := [(2, ⟨2, 202, 101⟩), (3, ⟨3, 203, 202⟩)] }).fork_to_child 101 =
      some [202]) ∧
    ((((BlockIndices.new 0 8 [(0, 100), (1, 101), (2, 102)]).insert_chain 7
        { blocks := [(2, ⟨2, 202, 101⟩), (3, ⟨3, 203, 202⟩)] }).update_block_hashes
        [(0, 100), (1, 111), (2, 112), (3, 113)]).1.blocks_to_chain 202 = none) := by
  refine ⟨?_, ?_, ?_, ?_⟩ <;>
    simp [BlockIndices.update_block_hashes, BlockIndices.insert_chain, insBlockStep,
      BlockIndices.new, BlockIndices.remove_block, remBlockStep, cascadeStep,
      insertKey, eraseKey, diffLoop]

theorem cascadeStep_fst_canonical (acc : BlockIndices × Finset BlockChainId)
    (c : BlockHash) : (cascadeStep acc c).1.canonical_chain = acc.1.canonical_chain := by
  cases h : acc.1.blocks_to_chain c <;> simp [cascadeStep, h]

theorem foldl_cascadeStep_fst_canonical (l : List BlockHash)
    (init : BlockIndices × Finset BlockChainId) :
    ((l.foldl cascadeStep init).1).canonical_chain = init.1.canonical_chain := by
  induction l generalizing init with
  | nil => rfl
  | cons c t ih => rw [List.foldl_cons, ih, cascadeStep_fst_canonical]

theorem finalizeForkStep_fst_canonical (acc : BlockIndices × Finset BlockChainId)
    (h : BlockHash) : (finalizeForkStep acc h).1.canonical_chain = acc.1.canonical_chain := by
  cases hf : acc.1.fork_to_child h <;>
    simp [finalizeForkStep, hf, foldl_cascadeStep_fst_canonical]

theorem foldl_finalizeForkStep_fst_canonical (l : List BlockHash)
    (init : BlockIndices × Finset BlockChainId) :
    ((l.foldl finalizeForkStep init).1).canonical_chain = init.1.canonical_chain := by
  induction l generalizing init with
  | nil => rfl
  | cons c t ih => rw [List.foldl_cons, ih, finalizeForkStep_fst_canonical]

theorem finalize_canonical_chain_eq (s : BlockIndices) (finalized_block : BlockNumber) :
    (s.finalize_canonical_blocks finalized_block).1.canonical_chain =
      s.canonical_chain.filter
        (fun p =>
          decide (finalized_block - s.num_of_additional_canonical_block_hashes ≤ p.1)) := by
  unfold BlockIndices.finalize_canonical_blocks
  simp [foldl_finalizeForkStep_fst_canonical]

/-- C7: after `finalize_canonical_blocks F` every key left in the canonical
chain is at least `F` minus the additional-canonical-hashes window; the
subtraction is the saturating subtraction of naturals. -/
theorem finalize_canonical_window (s : BlockIndices) (finalized_block : BlockNumber) :
    ∀ p ∈ (s.finalize_canonical_blocks finalized_block).1.canonical_chain,
      finalized_block - s.num_of_additional_canonical_block_hashes ≤ p.1 := by
  intro p hp
  rw [finalize_canonical_chain_eq] at hp
  exact of_decide_eq_true (List.mem_filter.mp hp).2

theorem finalize_canonical_window_witness :
    ((0, 100) ∈
      ((BlockIndices.new 0 8 [(0, 100)]).finalize_canonical_blocks 0).1.canonical_chain) ∧
    0 - (BlockIndices.new 0 8 [(0, 100)]).num_of_additional_canonical_block_hashes ≤ 0 := by
  refine ⟨?_, ?_⟩
  · simp [BlockIndices.finalize_canonical_blocks, finalizeForkStep, BlockIndices.new]
  · exact finalize_canonical_window (BlockIndices.new 0 8 [(0, 100)]) 0 (0, 100)
      (by simp [BlockIndices.finalize_canonical_blocks, finalizeForkStep, BlockIndices.new])

/-- C8: `is_block_hash_canonical` holds exactly when the hash is a canonical
value at some key at or above `last_finalized_block`; a hash present only at
keys strictly below the finalized height is reported as not canonical. -/
theorem is_block_hash_canonical_iff (s : BlockIndices) (block_hash : BlockHash) :
    (s.is_block_hash_canonical block_hash = true ↔
      ∃ n, (n, block_hash) ∈ s.canonical_chain ∧ s.last_finalized_block ≤ n) ∧
    ((∀ n v, (n, v) ∈ s.canonical_chain → v = block_hash → n < s.last_finalized_block) →
      s.is_block_hash_canonical block_hash = false) := by
  constructor
  · unfold BlockIndices.is_block_hash_canonical
    rw [List.any_eq_true]
    constructor
    · rintro ⟨⟨n, v⟩, hmem, hbeq⟩
      rw [List.mem_filter] at hmem
      have hv : v = block_hash := by simpa using hbeq
      exact ⟨n, by simpa [hv] using hmem.1, by simpa using hmem.2⟩
    · rintro ⟨n, hmem, hle⟩
      exact ⟨(n, block_hash), List.mem_filter.mpr ⟨hmem, by simpa using hle⟩, by simp⟩
  · intro hall
    by_contra hne
    have htrue : s.is_block_hash_canonical block_hash = true := by
      cases h : s.is_block_hash_canonical block_hash
      · exact absurd h hne
      · rfl
    unfold BlockIndices.is_block_hash_canonical at htrue
    rw [List.any_eq_true] at htrue
    obtain ⟨⟨n, v⟩, hmem, hbeq⟩ := htrue
    rw [List.mem_filter] at hmem
    have hv : v = block_hash := by simpa using hbeq
    have hlt := hall n v hmem.1 hv
    have hle : s.last_finalized_block ≤ n := by simpa using hmem.2
    exact absurd hle (not_le.mpr hlt)

theorem is_block_hash_canonical_iff_witness :
    ((BlockIndices.new 5 0 [(1, 55), (6, 60)]).is_block_hash_canonical 60 = true) ∧
    ((BlockIndices.new 5 0 [(1, 55), (6, 60)]).is_block_hash_canonical 55 = false) := by
  constructor
  · exact (is_block_hash_canonical_iff (BlockIndices.new 5 0 [(1, 55), (6, 60)]) 60).1.mpr
      ⟨6, by simp [BlockIndices.new], by decide⟩
  · exact (is_block_hash_canonical_iff (BlockIndices.new 5 0 [(1, 55), (6, 60)]) 55).2
      (by
        intro n v hmem hv
        simp [BlockIndices.new] at hmem
        rcases hmem with ⟨h1, h2⟩ | ⟨h1, h2⟩
        · subst h1; decide
        · exact absurd (hv.symm.trans h2) (by decide))

theorem pairwise_lt_getLast (l : List (BlockNumber × BlockHash))
    (hs : keysSorted l) (q : BlockNumber × BlockHash) (hq : l.getLast? = some q) :
    ∀ r ∈ l, r.1 ≤ q.1 := by
  induction l with
  | nil => simp at hq
  | cons a t ih =>
    cases t with
    | nil =>
      simp at hq
      intro r hr
      simp at hr
      simp [hr, hq]
    | cons b t2 =>
      rw [List.getLast?_cons_cons] at hq
      have hs2 : keysSorted (b :: t2) := (List.pairwise_cons.mp hs).2
      have hrel := (List.pairwise_cons.mp hs).1
      intro r hr
      rcases List.mem_cons.mp hr with h1 | h2
      · have hqmem : q ∈ b :: t2 := List.mem_of_getLast?_eq_some hq
        exact h1 ▸ le_of_lt (hrel q hqmem)
      · exact ih hs2 hq r h2

/-- C9: construction stores any seed canonical chain without a check; on an
empty seed the failure surfaces only at the first `canonical_tip` call,
modelled by the `none` result; and on a sorted non-empty canonical chain
`canonical_tip` succeeds and returns the entry with the highest number. -/
theorem canonical_tip_spec :
    (∀ f a seed, (BlockIndices.new f a seed).canonical_chain = seed) ∧
    (∀ f a, (BlockIndices.new f a []).canonical_tip = none) ∧
    (∀ s : BlockIndices, keysSorted s.canonical_chain → s.canonical_chain ≠ [] →
      ∃ q, s.canonical_tip = some { number := q.1, hash := q.2 } ∧
        q ∈ s.canonical_chain ∧ ∀ r ∈ s.canonical_chain, r.1 ≤ q.1) := by
  refine ⟨fun f a seed => rfl, fun f a => rfl, fun s hs hne => ?_⟩
  obtain ⟨q, hq⟩ := Option.ne_none_iff_exists'.mp
    (mt List.getLast?_eq_none_iff.mp hne : s.canonical_chain.getLast? ≠ none)
  exact ⟨q, by simp [BlockIndices.canonical_tip, hq], List.mem_of_getLast?_eq_some hq,
    pairwise_lt_getLast s.canonical_chain hs q hq⟩

theorem canonical_tip_spec_witness :
    keysSorted [(0, 100), (2, 102)] ∧ ([(0, 100), (2, 102)] : List (Nat × Nat)) ≠ [] ∧
    ∃ q, (BlockIndices.new 0 8 [(0, 100), (2, 102)]).canonical_tip =
        some { number := q.1, hash := q.2 } ∧
      q ∈ (BlockIndices.new 0 8 [(0, 100), (2, 102)]).canonical_chain ∧
      ∀ r ∈ (BlockIndices.new 0 8 [(0, 100), (2, 102)]).canonical_chain, r.1 ≤ q.1 :=
  ⟨by decide, by decide,
    canonical_tip_spec.2.2 (BlockIndices.new 0 8 [(0, 100), (2, 102)]) (by decide) (by decide)⟩

theorem markedForRemoval_eq (news olds acc) :
    markedForRemoval news olds acc = acc ++ diffLoop news olds := by
  induction news, olds using diffLoop.induct generalizing acc
  case case1 => simp [markedForRemoval, diffLoop]
  case case2 => simp [markedForRemoval, diffLoop]
  case case3 nn nh news2 on_ oh olds2 h ih =>
    simp only [markedForRemoval, diffLoop, if_pos h]
    exact ih acc
  case case4 nh news2 on_ oh olds2 h ih =>
    simp only [markedForRemoval, diffLoop, if_neg h, if_pos rfl]
    by_cases hne : nh = oh
    · simp [hne, ih]
    · simp [hne, ih, List.append_assoc]
  case case5 nn nh news2 on_ oh olds2 h1 h2 ih =>
    simp only [markedForRemoval, diffLoop, if_neg h1, if_neg h2]
    rw [ih]
    simp

/-- C1: `update_block_hashes` performs exactly the merge-diff by block
number described by the spec: it computes the marked old entries by the
three-way number comparison with the stated exhaustion rules, replaces the
canonical chain wholesale with the new map, and returns the union of the
`remove_block` results over exactly the marked entries. -/
theorem update_block_hashes_eq_spec (s : BlockIndices)
    (hashes : List (BlockNumber × BlockHash)) :
    s.update_block_hashes hashes = updateBlockHashesSpec s hashes := by
  unfold BlockIndices.update_block_hashes updateBlockHashesSpec
  rw [markedForRemoval_eq]
  simp

theorem foldl_cascadeStep_acc (l : List BlockHash) (s : BlockIndices)
    (X : Finset BlockChainId) :
    l.foldl cascadeStep (s, X) =
      ((l.foldl cascadeStep (s, (∅ : Finset BlockChainId))).1,
        X ∪ (l.foldl cascadeStep (s, (∅ : Finset BlockChainId))).2) := by
  induction l generalizing s X with
  | nil => simp
  | cons c t ih =>
    simp only [List.foldl_cons]
    cases h : s.blocks_to_chain c with
    | none =>
      have hstep : ∀ Y : Finset BlockChainId, cascadeStep (s, Y) c = (s, Y) := by
        intro Y; simp [cascadeStep, h]
      rw [hstep X, hstep ∅, ih]
    | some cid =>
      have hstep : ∀ Y : Finset BlockChainId, cascadeStep (s, Y) c =
          ({ s with blocks_to_chain := eraseKey s.blocks_to_chain c }, insert cid Y) := by
        intro Y; simp [cascadeStep, h]
      rw [hstep X, hstep ∅, ih, ih ({ s with blocks_to_chain := eraseKey s.blocks_to_chain c })
        (insert cid ∅)]
      refine Prod.ext rfl ?_
      simp only
      ext x
      simp [Finset.mem_insert, Finset.mem_union]
      tauto

theorem finalizeForkStep_eq_pop (acc : BlockIndices × Finset BlockChainId)
    (block_hash : BlockHash) :
    finalizeForkStep acc block_hash =
      ((popForkChildren acc.1 block_hash).1,
        acc.2 ∪ (popForkChildren acc.1 block_hash).2) := by
  cases hf : acc.1.fork_to_child block_hash with
  | none => simp [finalizeForkStep, popForkChildren, hf]
  | some fb =>
    simp only [finalizeForkStep, popForkChildren, hf]
    rw [foldl_cascadeStep_acc]

/-- C4: `finalize_canonical_blocks` implements the finalization procedure
of the spec: it collects the canonical hashes with numbers in the half-open
range from `last_finalized_block` up to but excluding the new finalized
number, pops the `fork_to_child` entry of each collected hash, removing
each child first-block hash from `blocks_to_chain` while collecting its
chain id, and sets `last_finalized_block` to the new finalized number,
returning the union of the collected ids. -/
theorem finalize_canonical_blocks_eq_spec (s : BlockIndices)
    (finalized_block : BlockNumber) :
    s.finalize_canonical_blocks finalized_block =
      finalizeCanonicalBlocksSpec s finalized_block := by
  unfold BlockIndices.finalize_canonical_blocks finalizeCanonicalBlocksSpec
  have hstep : finalizeForkStep =
      fun (acc : BlockIndices × Finset BlockChainId) (block_hash : BlockHash) =>
        ((popForkChildren acc.1 block_hash).1,
          acc.2 ∪ (popForkChildren acc.1 block_hash).2) :=
    funext fun acc => funext fun block_hash => finalizeForkStep_eq_pop acc block_hash
  rw [hstep]

theorem canonicalizeBlockStep_eq (t : BlockIndices)
    (nb : BlockNumber × SealedBlockWithSenders) (h : nb.2.number = nb.1) :
    canonicalizeBlockStep t nb =
      { t with
        blocks_to_chain := eraseKey t.blocks_to_chain nb.2.hash
        index_number_to_block := removeFromSetMap t.index_number_to_block nb.1 nb.2.hash
        fork_to_child := removeFromSetMap t.fork_to_child nb.2.parent_hash nb.2.hash } := by
  rw [canonicalizeBlockStep, removeFromSetMap, removeFromSetMap, h]
  rfl

theorem foldl_min_eq (a : Nat) (ks : List Nat) (h : ∀ k ∈ ks, a ≤ k) :
    ks.foldl min a = a := by
  induction ks with
  | nil => rfl
  | cons k t ih =>
    simp only [List.foldl_cons]
    rw [Nat.min_eq_left (h k (by simp))]
    exact ih (fun x hx => h x (by simp [hx]))

theorem min?_head_of_sorted (nb : BlockNumber × SealedBlockWithSenders)
    (rest : List (BlockNumber × SealedBlockWithSenders))
    (hsort : (nb :: rest).Pairwise (fun a b => a.1 < b.1)) :
    ((nb :: rest).map Prod.fst).min? = some nb.1 := by
  have hall : ∀ k ∈ rest.map Prod.fst, nb.1 ≤ k := by
    intro k hk
    obtain ⟨p, hp, rfl⟩ := List.mem_map.mp hk
    exact le_of_lt ((List.pairwise_cons.mp hsort).1 p hp)
  show some ((rest.map Prod.fst).foldl min nb.1) = some nb.1
  rw [foldl_min_eq nb.1 (rest.map Prod.fst) hall]

/-- C3: `canonicalize_blocks` on a chain-shaped input (keys sorted, each
block numbered by its key) returns unchanged on empty input, and otherwise
drops every canonical entry at or above the minimum input key, removes each
block from `blocks_to_chain`, from the `number -> block` set and the
`fork_to_child` set of its parent (deleting emptied sets), and finally
inserts every `(number, hash)` pair into the canonical chain. -/
theorem canonicalize_blocks_eq_spec (s : BlockIndices)
    (blocks : List (BlockNumber × SealedBlockWithSenders))
    (hsort : blocks.Pairwise (fun a b => a.1 < b.1))
    (hnum : ∀ nb ∈ blocks, nb.2.number = nb.1) :
    s.canonicalize_blocks blocks = canonicalizeBlocksSpec s blocks := by
  cases blocks with
  | nil => rfl
  | cons nb rest =>
    unfold BlockIndices.canonicalize_blocks canonicalizeBlocksSpec
    rw [min?_head_of_sorted nb rest hsort]
    simp only [List.head?_cons]
    rw [List.foldl_ext canonicalizeBlockStep
      (fun t b =>
        { t with
          blocks_to_chain := eraseKey t.blocks_to_chain b.2.hash
          index_number_to_block := removeFromSetMap t.index_number_to_block b.1 b.2.hash
          fork_to_child := removeFromSetMap t.fork_to_child b.2.parent_hash b.2.hash })
      _ (fun t b hb => canonicalizeBlockStep_eq t b (hnum b hb))]

theorem canonicalize_blocks_eq_spec_witness :
    ([(1, (⟨1, 201, 100⟩ : SealedBlockWithSenders))].Pairwise (fun a b => a.1 < b.1)) ∧
    (∀ nb ∈ [(1, (⟨1, 201, 100⟩ : SealedBlockWithSenders))], nb.2.number = nb.1) ∧
    (BlockIndices.new 0 8 [(0, 100), (1, 101)]).canonicalize_blocks
        [(1, (⟨1, 201, 100⟩ : SealedBlockWithSenders))] =
      canonicalizeBlocksSpec (BlockIndices.new 0 8 [(0, 100), (1, 101)])
        [(1, (⟨1, 201, 100⟩ : SealedBlockWithSenders))] :=
  ⟨by decide, by decide,
    canonicalize_blocks_eq_spec (BlockIndices.new 0 8 [(0, 100), (1, 101)])
      [(1, (⟨1, 201, 100⟩ : SealedBlockWithSenders))] (by decide) (by decide)⟩

theorem cascadeStep_fst_fork (acc : BlockIndices × Finset BlockChainId) (c : BlockHash) :
    (cascadeStep acc c).1.fork_to_child = acc.1.fork_to_child := by
  cases h : acc.1.blocks_to_chain c <;> simp [cascadeStep, h]

theorem foldl_cascadeStep_fst_fork (l : List BlockHash)
    (init : BlockIndices × Finset BlockChainId) :
    ((l.foldl cascadeStep init).1).fork_to_child = init.1.fork_to_child := by
  induction l generalizing init with
  | nil => rfl
  | cons c t ih => rw [List.foldl_cons, ih, cascadeStep_fst_fork]

theorem cascadeStep_fst_num (acc : BlockIndices × Finset BlockChainId) (c : BlockHash) :
    (cascadeStep acc c).1.index_number_to_block = acc.1.index_number_to_block := by
  cases h : acc.1.blocks_to_chain c <;> simp [cascadeStep, h]

theorem foldl_cascadeStep_fst_num (l : List BlockHash)
    (init : BlockIndices × Finset BlockChainId) :
    ((l.foldl cascadeStep init).1).index_number_to_block = init.1.index_number_to_block := by
  induction l generalizing init with
  | nil => rfl
  | cons c t ih => rw [List.foldl_cons, ih, cascadeStep_fst_num]

theorem remove_block_no_fork (s : BlockIndices) (n : BlockNumber) (h : BlockHash)
    (hf : s.fork_to_child h = none) :
    s.remove_block n h =
      ({ s with
          blocks_to_chain := eraseKey s.blocks_to_chain h
          index_number_to_block := removeFromSetMap s.index_number_to_block n h },
        (∅ : Finset BlockChainId)) := by
  unfold BlockIndices.remove_block
  rw [removeFromSetMap]
  cases hn : s.index_number_to_block n with
  | none => simp [hn, hf]
  | some set =>
    by_cases he : (set.erase h).isEmpty <;> simp [hn, he, hf]

theorem remove_block_fork_frame (s : BlockIndices) (n : BlockNumber) (h p : BlockHash)
    (hne : p ≠ h) :
    (s.remove_block n h).1.fork_to_child p = s.fork_to_child p := by
  unfold BlockIndices.remove_block
  cases hn : s.index_number_to_block n with
  | none =>
    cases hf : s.fork_to_child h with
    | none => simp [hn, hf]
    | some fb => simp [hn, hf, foldl_cascadeStep_fst_fork, eraseKey, hne]
  | some set =>
    by_cases he : (set.erase h).isEmpty <;>
      cases hf : s.fork_to_child h <;>
        simp [hn, he, hf, foldl_cascadeStep_fst_fork, eraseKey, hne]

theorem insFold_blocks_to_chain (chain_id : BlockChainId)
    (blocks : List (BlockNumber × SealedBlockWithSenders)) (t : BlockIndices)
    (x : BlockHash) :
    (blocks.foldl (insBlockStep chain_id) t).blocks_to_chain x =
      if x ∈ blocks.map (fun nb => nb.2.hash) then some chain_id
      else t.blocks_to_chain x := by
  induction blocks generalizing t with
  | nil => simp
  | cons a l ih =>
    rw [List.foldl_cons, ih]
    by_cases hx : x ∈ l.map (fun nb => nb.2.hash)
    · simp [hx]
    · by_cases he : x = a.2.hash <;> simp [hx, he, insBlockStep, insertKey]

theorem insFold_fork (chain_id : BlockChainId)
    (blocks : List (BlockNumber × SealedBlockWithSenders)) (t : BlockIndices) :
    (blocks.foldl (insBlockStep chain_id) t).fork_to_child = t.fork_to_child := by
  induction blocks generalizing t with
  | nil => rfl
  | cons a l ih => rw [List.foldl_cons, ih]; rfl

theorem insFold_num_frame (chain_id : BlockChainId)
    (blocks : List (BlockNumber × SealedBlockWithSenders)) (t : BlockIndices)
    (n : BlockNumber) (hn : n ∉ blocks.map Prod.fst) :
    (blocks.foldl (insBlockStep chain_id) t).index_number_to_block n =
      t.index_number_to_block n := by
  induction blocks generalizing t with
  | nil => rfl
  | cons a l ih =>
    rw [List.map_cons, List.mem_cons] at hn
    push_neg at hn
    rw [List.foldl_cons, ih _ hn.2]
    simp [insBlockStep, insertKey, hn.1]

theorem insFold_num_mem (chain_id : BlockChainId)
    (blocks : List (BlockNumber × SealedBlockWithSenders)) (t : BlockIndices)
    (nb : BlockNumber × SealedBlockWithSenders) (hmem : nb ∈ blocks)
    (hkeys : (blocks.map Prod.fst).Nodup) :
    (blocks.foldl (insBlockStep chain_id) t).index_number_to_block nb.1 =
      some (((t.index_number_to_block nb.1).getD []).insert nb.2.hash) := by
  induction blocks generalizing t with
  | nil => simp at hmem
  | cons a l ih =>
    rw [List.map_cons, List.nodup_cons] at hkeys
    rcases List.mem_cons.mp hmem with h1 | h2
    · subst h1
      rw [List.foldl_cons, insFold_num_frame chain_id l _ nb.1 hkeys.1]
      simp [insBlockStep, insertKey]
    · have hkey_ne : nb.1 ≠ a.1 := by
        intro hcontra
        exact hkeys.1 (hcontra ▸ List.mem_map.mpr ⟨nb, h2, rfl⟩)
      rw [List.foldl_cons, ih _ h2 hkeys.2]
      simp [insBlockStep, insertKey, hkey_ne]

theorem insFold_num_congr (chain_id : BlockChainId)
    (blocks : List (BlockNumber × SealedBlockWithSenders)) (t1 t2 : BlockIndices)
    (n : BlockNumber) (h : t1.index_number_to_block n = t2.index_number_to_block n) :
    (blocks.foldl (insBlockStep chain_id) t1).index_number_to_block n =
      (blocks.foldl (insBlockStep chain_id) t2).index_number_to_block n := by
  induction blocks generalizing t1 t2 with
  | nil => exact h
  | cons a l ih =>
    rw [List.foldl_cons, List.foldl_cons]
    refine ih _ _ ?_
    by_cases he : n = a.1
    · subst he
      simp [insBlockStep, insertKey, h]
    · simp [insBlockStep, insertKey, he, h]

theorem roundtrip_aux (chain_id : BlockChainId) :
    ∀ (blocks : List (BlockNumber × SealedBlockWithSenders)) (t u : BlockIndices),
    (∀ x, u.blocks_to_chain x =
      (blocks.foldl (insBlockStep chain_id) t).blocks_to_chain x) →
    (∀ n, u.index_number_to_block n =
      (blocks.foldl (insBlockStep chain_id) t).index_number_to_block n) →
    (∀ nb ∈ blocks, u.fork_to_child nb.2.hash = none) →
    (blocks.map Prod.fst).Nodup →
    (blocks.map (fun nb => nb.2.hash)).Nodup →
    (∀ nb ∈ blocks, t.blocks_to_chain nb.2.hash = none) →
    (∀ nb ∈ blocks, nb.2.hash ∉ (t.index_number_to_block nb.1).getD []) →
    (∀ nb ∈ blocks, t.index_number_to_block nb.1 ≠ some []) →
    (blocks.foldl (fun v nb => (v.remove_block nb.1 nb.2.hash).1) u).blocks_to_chain
        = t.blocks_to_chain ∧
    (blocks.foldl (fun v nb => (v.remove_block nb.1 nb.2.hash).1) u).index_number_to_block
        = t.index_number_to_block ∧
    (blocks.foldl (fun v nb => (v.remove_block nb.1 nb.2.hash).1) u).fork_to_child
        = u.fork_to_child := by
  intro blocks
  induction blocks with
  | nil =>
    intro t u h1 h2 _ _ _ _ _ _
    exact ⟨funext fun x => h1 x, funext fun n => h2 n, rfl⟩
  | cons nb rest ih =>
    intro t u h1 h2 hforku hkeys hhash habs habsn hnoem
    rw [List.map_cons, List.nodup_cons] at hkeys hhash
    have hmemself : nb ∈ nb :: rest := List.mem_cons_self nb rest
    have hremove := remove_block_no_fork u nb.1 nb.2.hash (hforku nb hmemself)
    have hl0 : u.index_number_to_block nb.1 =
        some (nb.2.hash :: (t.index_number_to_block nb.1).getD []) := by
      rw [h2 nb.1, insFold_num_mem chain_id (nb :: rest) t nb hmemself
        (by rw [List.map_cons, List.nodup_cons]; exact hkeys),
        List.insert_of_not_mem (habsn nb hmemself)]
    simp only [List.foldl_cons, hremove]
    have hstep := ih t
      { u with
        blocks_to_chain := eraseKey u.blocks_to_chain nb.2.hash
        index_number_to_block := removeFromSetMap u.index_number_to_block nb.1 nb.2.hash }
      ?_ ?_ ?_ hkeys.2 hhash.2
      (fun b hb => habs b (List.mem_cons_of_mem nb hb))
      (fun b hb => habsn b (List.mem_cons_of_mem nb hb))
      (fun b hb => hnoem b (List.mem_cons_of_mem nb hb))
    · exact ⟨hstep.1, hstep.2.1, hstep.2.2⟩
    · intro x
      show eraseKey u.blocks_to_chain nb.2.hash x = _
      rw [eraseKey, insFold_blocks_to_chain]
      by_cases hx : x = nb.2.hash
      · subst hx
        rw [if_pos rfl, if_neg hhash.1, habs nb hmemself]
      · rw [if_neg hx, h1 x, insFold_blocks_to_chain, List.map_cons]
        by_cases hxr : x ∈ rest.map (fun b => b.2.hash)
        · rw [if_pos (List.mem_cons_of_mem _ hxr), if_pos hxr]
        · rw [if_neg (by simp [List.mem_cons, hx, hxr]), if_neg hxr]
    · intro n
      show removeFromSetMap u.index_number_to_block nb.1 nb.2.hash n = _
      rw [removeFromSetMap, hl0]
      simp only [List.erase_cons_head]
      by_cases hn : n = nb.1
      · subst hn
        rw [insFold_num_frame chain_id rest t nb.1 hkeys.1]
        cases ht : t.index_number_to_block nb.1 with
        | none => simp [ht, eraseKey]
        | some w =>
          cases w with
          | nil => exact absurd ht (hnoem nb hmemself)
          | cons y ys => simp [ht, eraseKey, insertKey]
      · have hval : u.index_number_to_block n =
            (rest.foldl (insBlockStep chain_id) t).index_number_to_block n := by
          rw [h2 n, List.foldl_cons]
          exact insFold_num_congr chain_id rest (insBlockStep chain_id t nb) t n
            (by simp [insBlockStep, insertKey, hn])
        cases ht : t.index_number_to_block nb.1 with
        | none => simp [ht, eraseKey, hn, hval]
        | some w =>
          cases hw : w.isEmpty <;> simp [ht, hw, eraseKey, insertKey, hn, hval]
    · intro b hb
      show u.fork_to_child b.2.hash = none
      exact hforku b (List.mem_cons_of_mem nb hb)

theorem foldl_remBlockStep_fst :
    ∀ (l : List (BlockNumber × SealedBlockWithSenders)) (v : BlockIndices)
      (X : Finset BlockChainId),
    (l.foldl (fun acc nb => remBlockStep acc (nb.1, nb.2.hash)) (v, X)).1 =
      l.foldl (fun w nb => (w.remove_block nb.1 nb.2.hash).1) v := by
  intro l
  induction l with
  | nil => intro v X; rfl
  | cons nb rest ih =>
    intro v X
    rw [List.foldl_cons, List.foldl_cons]
    exact ih ((v.remove_block nb.1 nb.2.hash).1)
      (X ∪ (v.remove_block nb.1 nb.2.hash).2)

theorem remove_chain_fst (s : BlockIndices) (c : Chain) :
    (s.remove_chain c).1 =
      c.blocks.foldl (fun w nb => (w.remove_block nb.1 nb.2.hash).1) s := by
  unfold BlockIndices.remove_chain
  exact foldl_remBlockStep_fst c.blocks s ∅

theorem insert_chain_blocks_to_chain (s : BlockIndices) (chain_id : BlockChainId)
    (c : Chain) :
    (s.insert_chain chain_id c).blocks_to_chain =
      (c.blocks.foldl (insBlockStep chain_id) s).blocks_to_chain := by
  unfold BlockIndices.insert_chain
  cases c.blocks.head? <;> rfl

theorem insert_chain_index_number (s : BlockIndices) (chain_id : BlockChainId)
    (c : Chain) :
    (s.insert_chain chain_id c).index_number_to_block =
      (c.blocks.foldl (insBlockStep chain_id) s).index_number_to_block := by
  unfold BlockIndices.insert_chain
  cases c.blocks.head? <;> rfl

theorem insert_chain_fork_of_head (s : BlockIndices) (chain_id : BlockChainId)
    (c : Chain) (nb : BlockNumber × SealedBlockWithSenders)
    (hh : c.blocks.head? = some nb) :
    (s.insert_chain chain_id c).fork_to_child =
      insertKey s.fork_to_child nb.2.parent_hash
        (((s.fork_to_child nb.2.parent_hash).getD []).insert nb.2.hash) := by
  unfold BlockIndices.insert_chain
  rw [hh]
  simp [insFold_fork]

/-- C6: inserting a chain whose block hashes are fresh (absent from
`blocks_to_chain` and from the `number -> block` sets, with no fork entry
rooted at any of its blocks and a fork parent outside the chain) and then
removing it restores `blocks_to_chain` and `index_number_to_block` exactly
to their pre-insert values; `fork_to_child` is not part of the claim since
the parent entry may be retained. Block keys and hashes are pairwise
distinct and no retained `number -> block` set is empty, as the index
invariants guarantee. -/
theorem insert_then_remove_chain_restores_indices (s : BlockIndices)
    (chain_id : BlockChainId) (c : Chain)
    (hkeys : (c.blocks.map Prod.fst).Nodup)
    (hhash : (c.blocks.map (fun nb => nb.2.hash)).Nodup)
    (habs : ∀ nb ∈ c.blocks, s.blocks_to_chain nb.2.hash = none)
    (habsn : ∀ nb ∈ c.blocks, nb.2.hash ∉ (s.index_number_to_block nb.1).getD [])
    (hnoem : ∀ nb ∈ c.blocks, s.index_number_to_block nb.1 ≠ some [])
    (hfork : ∀ nb ∈ c.blocks, s.fork_to_child nb.2.hash = none)
    (hparent : ∀ fb ∈ c.first, fb.parent_hash ∉ c.blocks.map (fun nb => nb.2.hash)) :
    ((s.insert_chain chain_id c).remove_chain c).1.blocks_to_chain =
      s.blocks_to_chain ∧
    ((s.insert_chain chain_id c).remove_chain c).1.index_number_to_block =
      s.index_number_to_block := by
  rw [remove_chain_fst]
  have hforku : ∀ nb ∈ c.blocks,
      (s.insert_chain chain_id c).fork_to_child nb.2.hash = none := by
    intro nb hnb
    cases hh : c.blocks.head? with
    | none =>
      rw [List.head?_eq_none_iff] at hh
      rw [hh] at hnb
      simp at hnb
    | some fb =>
      rw [insert_chain_fork_of_head s chain_id c fb hh, insertKey]
      have hpar : fb.2.parent_hash ∉ c.blocks.map (fun b => b.2.hash) :=
        hparent fb.2 (by simp [Chain.first, hh])
      have hne2 : ¬nb.2.hash = fb.2.parent_hash := by
        intro hcontra
        exact hpar (hcontra ▸ List.mem_map.mpr ⟨nb, hnb, rfl⟩)
      simp only [if_neg hne2]
      exact hfork nb hnb
  have h := roundtrip_aux chain_id c.blocks s (s.insert_chain chain_id c)
    (fun x => by rw [insert_chain_blocks_to_chain])
    (fun n => by rw [insert_chain_index_number])
    hforku hkeys hhash habs habsn hnoem
  exact ⟨h.1, h.2.1⟩

theorem insert_then_remove_chain_restores_indices_witness :
    (([(1, (⟨1, 201, 100⟩ : SealedBlockWithSenders))].map Prod.fst).Nodup) ∧
    (((BlockIndices.new 0 8 [(0, 100)]).insert_chain 7
        { blocks := [(1, ⟨1, 201, 100⟩)] }).remove_chain
        { blocks := [(1, ⟨1, 201, 100⟩)] }).1.blocks_to_chain =
      (BlockIndices.new 0 8 [(0, 100)]).blocks_to_chain ∧
    (((BlockIndices.new 0 8 [(0, 100)]).insert_chain 7
        { blocks := [(1, ⟨1, 201, 100⟩)] }).remove_chain
        { blocks := [(1, ⟨1, 201, 100⟩)] }).1.index_number_to_block =
      (BlockIndices.new 0 8 [(0, 100)]).index_number_to_block := by
  refine ⟨by decide, ?_⟩
  exact insert_then_remove_chain_restores_indices (BlockIndices.new 0 8 [(0, 100)]) 7
    { blocks := [(1, ⟨1, 201, 100⟩)] } (by decide) (by decide) (by decide) (by decide)
    (by decide) (by decide) (by decide)

theorem removeFold_fork_frame :
    ∀ (blocks : List (BlockNumber × SealedBlockWithSenders)) (v : BlockIndices)
      (p : BlockHash), p ∉ blocks.map (fun nb => nb.2.hash) →
    (blocks.foldl (fun w nb => (w.remove_block nb.1 nb.2.hash).1) v).fork_to_child p =
      v.fork_to_child p := by
  intro blocks
  induction blocks with
  | nil => intro v p _; rfl
  | cons nb rest ih =>
    intro v p hp
    rw [List.map_cons, List.mem_cons] at hp
    push_neg at hp
    rw [List.foldl_cons, ih _ p hp.2, remove_block_fork_frame v nb.1 nb.2.hash p hp.1]

/-- C10: `remove_block` deletes the `fork_to_child` entry keyed by the
removed hash itself and never touches the entry at any other key, in
particular not the one at the removed block's own parent; consequently,
after `insert_chain` followed by `remove_chain` of a chain whose fork
parent is not one of its own block hashes, the first block's hash is still
registered in `fork_to_child` under that parent, whether or not any other
chain forks from it. -/
theorem remove_block_preserves_parent_fork_entry :
    (∀ (s : BlockIndices) (n : BlockNumber) (h p : BlockHash), p ≠ h →
      (s.remove_block n h).1.fork_to_child p = s.fork_to_child p) ∧
    (∀ (s : BlockIndices) (chain_id : BlockChainId) (c : Chain)
      (fb : SealedBlockWithSenders),
      c.first = some fb → fb.parent_hash ∉ c.blocks.map (fun nb => nb.2.hash) →
      fb.hash ∈
        ((((s.insert_chain chain_id c).remove_chain c).1.fork_to_child
          fb.parent_hash).getD [])) := by
  refine ⟨remove_block_fork_frame, ?_⟩
  intro s chain_id c fb hfirst hpar
  cases hh : c.blocks.head? with
  | none => simp [Chain.first, hh] at hfirst
  | some nb =>
    have hfb : nb.2 = fb := by simpa [Chain.first, hh] using hfirst
    rw [remove_chain_fst, removeFold_fork_frame c.blocks _ fb.parent_hash hpar,
      insert_chain_fork_of_head s chain_id c nb hh, hfb]
    simp [insertKey, List.mem_insert_iff]

theorem remove_block_preserves_parent_fork_entry_witness :
    ((3 : BlockHash) ≠ 5) ∧
    ((BlockIndices.new 0 8 []).remove_block 0 5).1.fork_to_child 3 =
      (BlockIndices.new 0 8 []).fork_to_child 3 ∧
    (201 : BlockHash) ∈
      (((((BlockIndices.new 0 8 [(0, 100)]).insert_chain 7
          { blocks := [(1, ⟨1, 201, 100⟩)] }).remove_chain
          { blocks := [(1, ⟨1, 201, 100⟩)] }).1.fork_to_child 100).getD []) :=
  ⟨by decide,
    remove_block_preserves_parent_fork_entry.1 (BlockIndices.new 0 8 []) 0 5 3 (by decide),
    remove_block_preserves_parent_fork_entry.2 (BlockIndices.new 0 8 [(0, 100)]) 7
      { blocks := [(1, ⟨1, 201, 100⟩)] } ⟨1, 201, 100⟩ (by decide) (by decide)⟩
